import Mathlib

/-!
Verification of the strconvex repository (text-to-Go-value converter plus a
path accessor over structured Go values) against its specification.

The embedding is shallow: Go values are modelled by the inductive `GoValue`,
Go types by `GoType`, and every repository function is translated into a pure
Lean function of the same name.  In-place mutation through `reflect.Value`
references becomes explicit value passing: a converter takes the destination's
prior value and returns the destination's new value together with the optional
error, which models Go's "mutate through the reference, return error" shape
exactly (including partially-performed mutation before a failure).  A Go
panic is modelled as the `Outcome.panicked` result.

Recursion into nested values/types is bounded by an explicit fuel parameter
(`Nat`) so that every definition is structurally recursive and kernel
reducible; fuel only limits depth of nesting, and the theorems below are
proved either for all fuel values or on branches that do not consume fuel.

Fragment notes (all unclaimed behaviour): float/complex destinations and the
TextUnmarshaler hook of `stringToValue` are outside the embedded fragment;
map keys are the scalar kinds (Go requires comparable keys and the repository
exercises string keys); `strconv.Unquote` is embedded for escape-free
double-quoted strings; promoted-field lookup models reflect's FieldByName
(first match; the ambiguity rule for multiply-promoted names is not modelled).
-/

namespace Strconvex

/-- Path token kinds (`Token` in the source, `InvalidToken` is the zero value). -/
inductive Token where
  | invalidToken
  | noToken
  | nameToken
  | keyToken
  | keyedNameToken
deriving DecidableEq, Repr

/-- Error taxonomy of the package: the named sentinel errors of strconvex
plus the ad-hoc errors it creates (`outOfRange` is `errors.New("index out of
range")`, `syn` the "strconvex: syntax error", `fieldNotFound` the
"strconvex: field not found" error, `parseFailure` any strconv parse error).
`outOfFuel` is an artifact of the fuel-bounded embedding and never occurs in
any result established below. -/
inductive Err where
  | invalidPath
  | invalidValue
  | invalidArgument
  | unsupportedValue
  | outOfRange
  | syn
  | fieldNotFound
  | parseFailure
  | outOfFuel
deriving DecidableEq, Repr

/-- Result of an operation that may return an error or abort with a panic. -/
inductive Outcome (α : Type) where
  | ok (a : α)
  | fail (e : Err)
  | panicked
deriving Repr

/-- Integer bit widths; Go's `int`, `uint` and `uintptr` are 64-bit here. -/
inductive IntW where
  | w8 | w16 | w32 | w64
deriving DecidableEq, Repr

/-- Go types of the embedded fragment (the kinds the claims exercise). -/
inductive GoType where
  | tBool
  | tInt (w : IntW)
  | tUint (w : IntW)
  | tString
  | tArray (n : Nat) (t : GoType)
  | tSlice (t : GoType)
  | tMap (kt vt : GoType)
  | tStruct (fields : List (String × Bool × GoType))
  | tPtr (t : GoType)
  | tOther
deriving Repr

/-- Go values of the embedded fragment.  A struct field is
`(name, anonymous?, value)`; compound values carry their element types so
that fresh zero values can be allocated as `reflect.New` does.  `vInvalid`
is the zero `reflect.Value`; `vNil` is a nil `interface{}`. -/
inductive GoValue where
  | vBool (b : Bool)
  | vInt (w : IntW) (n : Int)
  | vUint (w : IntW) (n : Nat)
  | vString (s : String)
  | vArray (t : GoType) (elems : List GoValue)
  | vSlice (t : GoType) (elems : List GoValue)
  | vMap (kt vt : GoType) (entries : List (GoValue × GoValue))
  | vStruct (fields : List (String × Bool × GoValue))
  | vPtr (t : GoType) (p : Option GoValue)
  | vInvalid
  | vNil
deriving Repr

/-! ## String helpers (`strings.Split`, `strings.TrimSpace`, ...) -/

/-- `strings.Split` on a one-character separator; note Go's
`Split("", sep) = [""]`, so the result is never empty. -/
def splitOnChar (sep : Char) : List Char → List (List Char)
  | [] => [[]]
  | c :: rest =>
    if c = sep then [] :: splitOnChar sep rest
    else
      match splitOnChar sep rest with
      | [] => [[c]]
      | g :: gs => (c :: g) :: gs

/-- ASCII whitespace (the fragment of `unicode.IsSpace` the inputs use). -/
def isSpaceChar (c : Char) : Bool :=
  c = ' ' || c = '\t' || c = '\n' || c = '\r'

/-- Drop leading whitespace. -/
def trimLeading : List Char → List Char
  | [] => []
  | c :: rest => if isSpaceChar c then trimLeading rest else c :: rest

/-- `strings.TrimSpace` over the character list. -/
def trimSpace (l : List Char) : List Char :=
  (trimLeading (trimLeading l).reverse).reverse

/-- `strings.TrimPrefix` for a one-character prefix. -/
def trimPrefixChar (c : Char) : List Char → List Char
  | [] => []
  | x :: rest => if x = c then rest else x :: rest

/-- `strings.TrimSuffix` for a one-character suffix. -/
def trimSuffixChar (c : Char) (l : List Char) : List Char :=
  match l.reverse with
  | [] => l
  | x :: rest => if x = c then rest.reverse else l

/-! ## strconv number and bool parsing -/

/-- Decimal digit value of a character, if it is a digit. -/
def digitVal (c : Char) : Option Nat :=
  if '0' ≤ c ∧ c ≤ '9' then some (c.toNat - '0'.toNat) else none

/-- Accumulate base-10 digits; `none` as soon as a non-digit appears. -/
def natOfDigitsAux : List Char → Nat → Option Nat
  | [], acc => some acc
  | c :: rest, acc =>
    match digitVal c with
    | none => none
    | some d => natOfDigitsAux rest (acc * 10 + d)

/-- Parse a non-empty all-digit string bounded by `bound` (inclusive). -/
def parsePos (l : List Char) (bound : Nat) : Option Nat :=
  match l with
  | [] => none
  | _ =>
    match natOfDigitsAux l 0 with
    | none => none
    | some m => if m ≤ bound then some m else none

/-- `strconv.ParseInt(s, 10, 64)`: optional sign, base-10 digits, 64-bit
signed range; `none` models both the syntax and the range error. -/
def parseInt64 (s : String) : Option Int :=
  match s.data with
  | [] => none
  | c :: rest =>
    if c = '-' then
      match parsePos rest (2 ^ 63) with
      | none => none
      | some m => some (-(m : Int))
    else if c = '+' then
      match parsePos rest (2 ^ 63 - 1) with
      | none => none
      | some m => some ((m : Int))
    else
      match parsePos (c :: rest) (2 ^ 63 - 1) with
      | none => none
      | some m => some ((m : Int))

/-- `strconv.ParseUint(s, 10, 64)`: base-10 digits, no sign permitted,
64-bit unsigned range. -/
def parseUint64 (s : String) : Option Nat :=
  parsePos s.data (2 ^ 64 - 1)

/-- `strconv.Atoi` = `ParseInt(s, 10, 0)` with a 64-bit `int`. -/
def Atoi (s : String) : Option Int :=
  parseInt64 s

/-- `strconv.ParseBool`: exactly these literals are accepted. -/
def parseBool (s : String) : Option Bool :=
  if s = "1" ∨ s = "t" ∨ s = "T" ∨ s = "true" ∨ s = "TRUE" ∨ s = "True" then some true
  else if s = "0" ∨ s = "f" ∨ s = "F" ∨ s = "false" ∨ s = "FALSE" ∨ s = "False" then some false
  else none

/-- Bit count of a width. -/
def IntW.bits : IntW → Nat
  | .w8 => 8
  | .w16 => 16
  | .w32 => 32
  | .w64 => 64

/-- `reflect.Value.Convert` from int64 to a narrower signed integer type:
two's-complement truncation (no error, no saturation). -/
def wrapSigned (w : IntW) (n : Int) : Int :=
  (n + 2 ^ (w.bits - 1)) % (2 ^ w.bits : Int) - 2 ^ (w.bits - 1)

/-- `reflect.Value.Convert` from uint64 to a narrower unsigned type. -/
def wrapUnsigned (w : IntW) (n : Nat) : Nat :=
  n % 2 ^ w.bits

/-! ## Path tokenizer (`Parse` / `Path.Next` / `validElement`) -/

/-- `validElement`: an element is valid if it is non-empty and does not end
in an empty bracket pair. -/
def validElement (element : List Char) : Bool :=
  if element.length = 0 then false
  else if 2 ≤ element.length ∧ element.drop (element.length - 2) = ['[', ']'] then false
  else true

/-- The character classes `Path.Next` switches on. -/
inductive CKind where
  | lbrack | rbrack | dot | other
deriving DecidableEq, Repr

/-- Classify a path character. -/
def ckind (c : Char) : CKind :=
  if c = '[' then .lbrack
  else if c = ']' then .rbrack
  else if c = '.' then .dot
  else .other

/-- The scan loop of `Path.Next`, translated from the indexed loop to the
remaining suffix: `acc` is the slice `path[p.current:i]` accumulated so far
and the returned third component is the suffix the cursor is left at.
On an `invalidToken` return the cursor component is immaterial (the source
leaves the cursor unchanged and every caller stops iterating); the
`noToken` branches inside the scan mirror unreachable fall-through code. -/
def nextLoop : List Char → Token → List Char → List Char × Token × List Char
  | [], tk, acc =>
    match tk with
    | .invalidToken => ([], .noToken, [])
    | .keyToken => ([], .invalidToken, [])
    | .keyedNameToken => ([], .invalidToken, [])
    | .nameToken =>
      if validElement acc then (acc, .nameToken, []) else ([], .invalidToken, [])
    | .noToken => ([], .noToken, [])
  | c :: rest, tk, acc =>
    match ckind c with
    | .lbrack =>
      match tk with
      | .invalidToken => nextLoop rest .keyToken (acc ++ [c])
      | .nameToken => nextLoop rest .keyedNameToken (acc ++ [c])
      | .keyToken => ([], .invalidToken, c :: rest)
      | .keyedNameToken => ([], .invalidToken, c :: rest)
      | .noToken => nextLoop rest .noToken (acc ++ [c])
    | .rbrack =>
      match tk with
      | .invalidToken => ([], .invalidToken, c :: rest)
      | .nameToken => ([], .invalidToken, c :: rest)
      | _ =>
        if validElement (acc ++ [c]) then (acc ++ [c], tk, rest)
        else ([], .invalidToken, c :: rest)
    | .dot =>
      match tk with
      | .invalidToken => nextLoop rest .nameToken []
      | .keyToken => ([], .invalidToken, c :: rest)
      | .keyedNameToken => ([], .invalidToken, c :: rest)
      | .nameToken =>
        if validElement acc then (acc, .nameToken, c :: rest)
        else ([], .invalidToken, c :: rest)
      | .noToken => (acc ++ [c], .noToken, rest)
    | .other =>
      match tk with
      | .invalidToken => nextLoop rest .nameToken (acc ++ [c])
      | t => nextLoop rest t (acc ++ [c])

/-- `Path.Next` on the remaining path suffix. -/
def next (l : List Char) : List Char × Token × List Char :=
  nextLoop l .invalidToken []

/-- Driving `Next` repeatedly (as `Find` and the tests do): collect yielded
elements, stop at `noToken` (not collected) or at `invalidToken`
(collected, terminal).  Fuel-exhaustion emits the sentinel invalid entry;
`tokenize` below supplies sufficient fuel, as proved by the fuel-stability
theorem. -/
def tokenizeFuel : Nat → List Char → List (List Char × Token)
  | 0, _ => [([], .invalidToken)]
  | fuel + 1, l =>
    match next l with
    | (_, .noToken, _) => []
    | (e, .invalidToken, _) => [(e, .invalidToken)]
    | (e, tk, rest) => (e, tk) :: tokenizeFuel fuel rest

/-- The complete token stream of a path. -/
def tokenize (l : List Char) : List (List Char × Token) :=
  tokenizeFuel (l.length + 1) l

/-! ## Element parser (`ParseElement`) -/

/-- The escape-free double-quoted fragment of `strconv.Unquote`; all other
inputs (raw strings, char literals, escapes, unquoted text) are errors in
this fragment, which matches Go on every unquoted or malformed input. -/
def unquote (l : List Char) : Option String :=
  if 2 ≤ l.length ∧ l.head? = some '"' ∧ l.getLast? = some '"' then
    if ((l.drop 1).dropLast).all (fun c => c ≠ '"' ∧ c ≠ '\\') then
      some (String.mk ((l.drop 1).dropLast))
    else none
  else none

/-- `ParseElement`: split an element into name and key according to its
token kind. -/
def ParseElement (element : String) (token : Token) : Except Err (String × String) :=
  if element = "" then .error .invalidArgument
  else
    match token with
    | .invalidToken => .error .invalidArgument
    | .noToken => .error .invalidArgument
    | .nameToken => .ok (element, "")
    | .keyToken =>
      match unquote (trimPrefixChar '[' (trimSuffixChar ']' element.data)) with
      | none => .error .parseFailure
      | some key => .ok ("", key)
    | .keyedNameToken =>
      match splitOnChar '[' element.data with
      | [name, keyPart] => .ok (String.mk name, String.mk (trimSuffixChar ']' keyPart))
      | _ => .error .invalidPath

/-! ## Reflect-style value helpers -/

/-- `reflect.Indirect`: strip one pointer level; a nil pointer dereferences
to the zero `Value`. -/
def indirect : GoValue → GoValue
  | .vPtr _ (some p) => p
  | .vPtr _ none => .vInvalid
  | v => v

/-- Equality of scalar map keys (Go map keys are comparable; the embedded
fragment uses scalar keys). -/
def scalarEq : GoValue → GoValue → Bool
  | .vBool a, .vBool b => a = b
  | .vInt w a, .vInt w' b => w = w' ∧ a = b
  | .vUint w a, .vUint w' b => w = w' ∧ a = b
  | .vString a, .vString b => a = b
  | _, _ => false

/-- `reflect.Value.MapIndex`: look a key up, zero `Value` when absent. -/
def mapIndex : List (GoValue × GoValue) → GoValue → GoValue
  | [], _ => .vInvalid
  | (k, v) :: rest, key => if scalarEq k key then v else mapIndex rest key

/-- `reflect.Value.SetMapIndex`: insert or replace. -/
def mapSet : List (GoValue × GoValue) → GoValue → GoValue → List (GoValue × GoValue)
  | [], k, v => [(k, v)]
  | (k', v') :: rest, k, v =>
    if scalarEq k' k then (k', v) :: rest else (k', v') :: mapSet rest k v

/-- `reflect.Value.FieldByName` including promoted fields of
anonymous/embedded structs: own fields first at each node, then a
depth-first search of embedded members, first match wins (the ambiguity
rule for the same name promoted twice is not modelled).  Returns the zero
`Value` when no field matches.  Fuel bounds the total number of fields
visited. -/
def fieldByName : Nat → List (String × Bool × GoValue) → String → GoValue
  | 0, _, _ => .vInvalid
  | _ + 1, [], _ => .vInvalid
  | fuel + 1, (n, anon, v) :: rest, name =>
    if n = name then v
    else
      match (if anon then
               match v with
               | .vStruct fs => fieldByName fuel fs name
               | _ => .vInvalid
             else .vInvalid) with
      | .vInvalid => fieldByName fuel rest name
      | found => found

/-- Writing through the reference obtained by `FieldByName`: replace the
named (possibly promoted) field, `none` when no field matches.  Same search
order as `fieldByName`. -/
def setFieldByName : Nat → List (String × Bool × GoValue) → String → GoValue →
    Option (List (String × Bool × GoValue))
  | 0, _, _, _ => none
  | _ + 1, [], _, _ => none
  | fuel + 1, (n, anon, v) :: rest, name, nv =>
    if n = name then some ((n, anon, nv) :: rest)
    else
      match (if anon then
               match v with
               | .vStruct fs =>
                 (setFieldByName fuel fs name nv).map (fun fs' => GoValue.vStruct fs')
               | _ => none
             else none) with
      | some v' => some ((n, anon, v') :: rest)
      | none => (setFieldByName fuel rest name nv).map (fun rest' => (n, anon, v) :: rest')

/-- `reflect.Indirect(reflect.New(t))`: the zero value of a type. -/
def zeroValue : Nat → GoType → GoValue
  | 0, _ => .vInvalid
  | fuel + 1, t =>
    match t with
    | .tBool => .vBool false
    | .tInt w => .vInt w 0
    | .tUint w => .vUint w 0
    | .tString => .vString ""
    | .tArray n e => .vArray e (List.replicate n (zeroValue fuel e))
    | .tSlice e => .vSlice e []
    | .tMap k v => .vMap k v []
    | .tStruct fs => .vStruct (fs.map (fun f => (f.1, f.2.1, zeroValue fuel f.2.2)))
    | .tPtr e => .vPtr e none
    | .tOther => .vInvalid

/-- The zero value of a value's own type
(`reflect.Indirect(reflect.New(v.Type()))`). -/
def zeroLike : Nat → GoValue → GoValue
  | 0, _ => .vInvalid
  | fuel + 1, v =>
    match v with
    | .vBool _ => .vBool false
    | .vInt w _ => .vInt w 0
    | .vUint w _ => .vUint w 0
    | .vString _ => .vString ""
    | .vArray t elems => .vArray t (List.replicate elems.length (zeroValue fuel t))
    | .vSlice t _ => .vSlice t []
    | .vMap kt vt _ => .vMap kt vt []
    | .vStruct fields => .vStruct (fields.map (fun f => (f.1, f.2.1, zeroLike fuel f.2.2)))
    | .vPtr t _ => .vPtr t none
    | .vInvalid => .vInvalid
    | .vNil => .vNil

/-! ## Value converter (`stringToValue` and its per-shape helpers)

Each helper takes the destination's prior contents (the components of the
matched `GoValue`) and returns the destination's new contents plus the
optional error, exactly mirroring mutation through the `reflect.Value`
reference.  The dispatch guarantees each helper its own shape. -/

/-- `stringToBoolValue`. -/
def stringToBoolValue (s : String) (prior : Bool) : GoValue × Option Err :=
  match parseBool s with
  | none => (.vBool prior, some .parseFailure)
  | some b => (.vBool b, none)

/-- `stringToIntValue`: parse as 64-bit signed, then `Convert` (truncate) to
the destination width. -/
def stringToIntValue (s : String) (w : IntW) (prior : Int) : GoValue × Option Err :=
  match parseInt64 s with
  | none => (.vInt w prior, some .parseFailure)
  | some n => (.vInt w (wrapSigned w n), none)

/-- `stringToUintValue`: parse as 64-bit unsigned, then `Convert` (truncate)
to the destination width. -/
def stringToUintValue (s : String) (w : IntW) (prior : Nat) : GoValue × Option Err :=
  match parseUint64 s with
  | none => (.vUint w prior, some .parseFailure)
  | some n => (.vUint w (wrapUnsigned w n), none)

/-- `stringToStringValue`: identity copy. -/
def stringToStringValue (s : String) : GoValue × Option Err :=
  (.vString s, none)

/-- The element loop shared by the array and slice converters: convert the
texts positionally into the slots, stopping at the shorter list (the
source's `i < l && i < len(a)`), aborting on the first element error. -/
def convEach (conv : String → GoValue → GoValue × Option Err) :
    List String → List GoValue → Except Err (List GoValue)
  | [], vs => .ok vs
  | _ :: _, [] => .ok []
  | s :: ss, v :: vs =>
    match conv s v with
    | (_, some e) => .error e
    | (v', none) =>
      match convEach conv ss vs with
      | .error e => .error e
      | .ok vs' => .ok (v' :: vs')

/-- `stringToArrayValue`: split on commas, trim each element, convert into a
freshly zeroed array of the same type, then assign it wholesale; on any
element error the destination keeps its prior value. -/
def stringToArrayValue (conv : String → GoValue → GoValue × Option Err)
    (zero : GoType → GoValue) (s : String) (t : GoType) (elems : List GoValue) :
    GoValue × Option Err :=
  match convEach conv
      ((splitOnChar ',' s.data).map (fun p => String.mk (trimSpace p)))
      (List.replicate elems.length (zero t)) with
  | .error e => (.vArray t elems, some e)
  | .ok vs => (.vArray t vs, none)

/-- `stringToSliceValue`: split on commas (no trimming), convert into a
freshly made slice of exactly that length, then assign it wholesale; on any
element error the destination keeps its prior value. -/
def stringToSliceValue (conv : String → GoValue → GoValue × Option Err)
    (zero : GoType → GoValue) (s : String) (t : GoType) (elems : List GoValue) :
    GoValue × Option Err :=
  match convEach conv
      ((splitOnChar ',' s.data).map String.mk)
      (List.replicate (splitOnChar ',' s.data).length (zero t)) with
  | .error e => (.vSlice t elems, some e)
  | .ok vs => (.vSlice t vs, none)

/-- The pair loop of `stringToMapValue`: trim each segment, require exactly
one `=`, convert key and value into fresh zero values, accumulate into the
new map. -/
def mapPairs (conv : String → GoValue → GoValue × Option Err) (zk zv : GoValue) :
    List (List Char) → List (GoValue × GoValue) → Except Err (List (GoValue × GoValue))
  | [], m => .ok m
  | p :: ps, m =>
    match splitOnChar '=' (trimSpace p) with
    | [kText, vText] =>
      match conv (String.mk kText) zk with
      | (_, some e) => .error e
      | (k, none) =>
        match conv (String.mk vText) zv with
        | (_, some e) => .error e
        | (v, none) => mapPairs conv zk zv ps (mapSet m k v)
    | _ => .error .syn

/-- `stringToMapValue`: build a fresh map from `k=v` pairs, then assign it
wholesale; on any error the destination keeps its prior value. -/
def stringToMapValue (conv : String → GoValue → GoValue × Option Err)
    (zero : GoType → GoValue) (s : String) (kt vt : GoType)
    (entries : List (GoValue × GoValue)) : GoValue × Option Err :=
  match mapPairs conv (zero kt) (zero vt) (splitOnChar ',' s.data) [] with
  | .error e => (.vMap kt vt entries, some e)
  | .ok m => (.vMap kt vt m, none)

/-- The pair loop of `stringToStructValue`: for each `field=value` pair look
the field up by name (`FieldByName`, promotion included), convert the value
text into a fresh zero of the field's type, and write the field in place.
On an error the fields mutated so far are KEPT (the source mutates `out`
directly and returns).  The paired lookup/write is the functional rendering
of taking the `FieldByName` reference once and calling `Set` on it. -/
def structPairs (conv : String → GoValue → GoValue × Option Err)
    (zl : GoValue → GoValue)
    (getF : List (String × Bool × GoValue) → String → GoValue)
    (setF : List (String × Bool × GoValue) → String → GoValue →
      Option (List (String × Bool × GoValue))) :
    List (List Char) → List (String × Bool × GoValue) →
    List (String × Bool × GoValue) × Option Err
  | [], fields => (fields, none)
  | p :: ps, fields =>
    match splitOnChar '=' (trimSpace p) with
    | [fName, fVal] =>
      match getF fields (String.mk fName) with
      | .vInvalid => (fields, some .fieldNotFound)
      | fv =>
        match conv (String.mk fVal) (zl fv) with
        | (_, some e) => (fields, some e)
        | (nv, none) =>
          match setF fields (String.mk fName) nv with
          | some fields' => structPairs conv zl getF setF ps fields'
          | none => (fields, some .fieldNotFound)
    | _ => (fields, some .syn)

/-- `stringToStructValue`: strip one brace pair, split on commas, assign the
named fields one by one in place. -/
def stringToStructValue (conv : String → GoValue → GoValue × Option Err)
    (zl : GoValue → GoValue)
    (getF : List (String × Bool × GoValue) → String → GoValue)
    (setF : List (String × Bool × GoValue) → String → GoValue →
      Option (List (String × Bool × GoValue)))
    (s : String) (fields : List (String × Bool × GoValue)) : GoValue × Option Err :=
  match structPairs conv zl getF setF
      (splitOnChar ',' (trimPrefixChar '{' (trimSuffixChar '}' s.data))) fields with
  | (fields', e) => (.vStruct fields', e)

/-- `stringToPointerValue`: allocate a zero pointee, convert into it, then
point the destination at the new storage. -/
def stringToPointerValue (conv : String → GoValue → GoValue × Option Err)
    (zero : GoType → GoValue) (s : String) (t : GoType) (p : Option GoValue) :
    GoValue × Option Err :=
  match conv s (zero t) with
  | (_, some e) => (.vPtr t p, some e)
  | (nv, none) => (.vPtr t (some nv), none)

/-- `stringToValue`: dispatch on the destination's kind.  Fuel bounds the
nesting depth of recursive conversions (compound elements and pointer
chains).  Float and complex kinds and the TextUnmarshaler hook are outside
the embedded fragment; unsupported kinds (and the unreachable invalid/nil
destinations) fail as the source's default branch does. -/
def stringToValue : Nat → String → GoValue → GoValue × Option Err
  | 0, _, out => (out, some .outOfFuel)
  | fuel + 1, s, out =>
    match out with
    | .vBool b => stringToBoolValue s b
    | .vInt w n => stringToIntValue s w n
    | .vUint w n => stringToUintValue s w n
    | .vString _ => stringToStringValue s
    | .vArray t elems => stringToArrayValue (stringToValue fuel) (zeroValue fuel) s t elems
    | .vSlice t elems => stringToSliceValue (stringToValue fuel) (zeroValue fuel) s t elems
    | .vMap kt vt entries =>
      stringToMapValue (stringToValue fuel) (zeroValue fuel) s kt vt entries
    | .vStruct fields =>
      stringToStructValue (stringToValue fuel) (zeroLike fuel) (fieldByName fuel)
        (setFieldByName fuel) s fields
    | .vPtr t p => stringToPointerValue (stringToValue fuel) (zeroValue fuel) s t p
    | .vInvalid => (out, some .unsupportedValue)
    | .vNil => (out, some .unsupportedValue)

/-! ## Path resolver (`Find` / `Get` / `Set` and the Must variants) -/

/-- `valueByKey`: resolve a key against an array, slice or map.  For
arrays/slices the key must `Atoi`-parse (else the `ErrInvalidPath`-wrapped
error); an index at or past the length is the "index out of range" error;
the source then calls `value.Index(i)`, which panics for a negative index.
For maps the key text is converted into a fresh zero of the key type and
looked up; a missing key yields the zero `Value`. -/
def valueByKey (fuel : Nat) (value : GoValue) (key : String) : Outcome GoValue :=
  match value with
  | .vArray _ elems =>
    match Atoi key with
    | none => .fail .invalidPath
    | some i =>
      if (elems.length : Int) ≤ i then .fail .outOfRange
      else if i < 0 then .panicked
      else .ok (elems.getD i.toNat .vInvalid)
  | .vSlice _ elems =>
    match Atoi key with
    | none => .fail .invalidPath
    | some i =>
      if (elems.length : Int) ≤ i then .fail .outOfRange
      else if i < 0 then .panicked
      else .ok (elems.getD i.toNat .vInvalid)
  | .vMap kt _ entries =>
    match stringToValue fuel key (zeroValue fuel kt) with
    | (_, some _) => .fail .invalidPath
    | (mk, none) => .ok (mapIndex entries mk)
  | _ => .fail .invalidPath

/-- The token loop of `Find`.  A name token requires the current position to
be literally a struct and descends through `FieldByName` with no validity
check; key and keyed-name tokens resolve through `valueByKey` and RETURN
immediately, ignoring any remaining path. -/
def findLoop (fuel : Nat) : List (List Char × Token) → GoValue → Outcome GoValue
  | [], current => .ok current
  | (e, tk) :: rest, current =>
    match tk with
    | .invalidToken => .fail .invalidPath
    | .noToken => .ok current
    | .nameToken =>
      match current with
      | .vStruct fields => findLoop fuel rest (fieldByName fuel fields (String.mk e))
      | _ => .fail .invalidPath
    | .keyToken =>
      match ParseElement (String.mk e) .keyToken with
      | .error err => .fail err
      | .ok (_, key) => valueByKey fuel current key
    | .keyedNameToken =>
      match current with
      | .vStruct fields =>
        match ParseElement (String.mk e) .keyedNameToken with
        | .error err => .fail err
        | .ok (name, key) =>
          match fieldByName fuel fields name with
          | .vInvalid => .fail .invalidPath
          | fv => valueByKey fuel fv key
      | _ => .fail .invalidPath

/-- `Find`: reject the empty path and a nil root, strip one pointer level
off the root, then walk the token stream. -/
def Find (fuel : Nat) (path : String) (root : GoValue) : Outcome GoValue :=
  if path = "" then .fail .invalidPath
  else
    match root with
    | .vNil => .fail .invalidArgument
    | _ => findLoop fuel (tokenize path.data) (indirect root)

/-- `Get`: `Find`, then unwrap via `Value.Interface()` (which panics on the
zero `Value`). -/
def Get (fuel : Nat) (path : String) (root : GoValue) : Outcome GoValue :=
  match Find fuel path root with
  | .fail e => .fail e
  | .panicked => .panicked
  | .ok v =>
    match v with
    | .vInvalid => .panicked
    | _ => .ok v

/-- `MustFind`: `Find`, turning an error return into a panic. -/
def MustFind (fuel : Nat) (path : String) (root : GoValue) : Outcome GoValue :=
  match Find fuel path root with
  | .ok v => .ok v
  | .fail _ => .panicked
  | .panicked => .panicked

/-- `Set` as the source defines it: the body is `return nil` — no lookup,
no conversion, no mutation, never an error. -/
def Set (_path _value : String) (root : GoValue) : GoValue × Option Err :=
  (root, none)

/-- `MustGet` as the source defines it: the body is `return nil` — it never
calls `Get` and never panics, always yielding a nil `interface{}`. -/
def MustGet (_path : String) (_root : GoValue) : Outcome GoValue :=
  .ok .vNil

/-- `MustSet` as the source defines it: an empty body — no mutation and no
panic. -/
def MustSet (_path _value : String) (root : GoValue) : GoValue :=
  root

/-! ## The test fixture (`getData` of accessor_test.go) -/

/-- The `Child` struct type of the accessor tests. -/
def childT : GoType :=
  .tStruct [("Bool", false, .tBool), ("Int", false, .tInt .w64), ("String", false, .tString)]

/-- A `Child` value. -/
def mkChild (b : Bool) (i : Int) (s : String) : GoValue :=
  .vStruct [("Bool", false, .vBool b), ("Int", false, .vInt .w64 i),
            ("String", false, .vString s)]

/-- The `Root` struct type: an embedded `Child`, an array, a slice and a
string-keyed map of `Child`. -/
def rootT : GoType :=
  .tStruct [("Child", true, childT), ("Array", false, .tArray 5 childT),
            ("Slice", false, .tSlice childT), ("Map", false, .tMap .tString childT)]

/-- `getData()`: the pointer-to-Root fixture of the accessor tests. -/
def getData : GoValue :=
  .vPtr rootT (some (.vStruct
    [("Child", true, mkChild false 0 ""),
     ("Array", false, .vArray childT
       [mkChild true 1 "One", mkChild false 2 "Two", mkChild true 3 "Three",
        mkChild false 4 "Four", mkChild true 5 "Five"]),
     ("Slice", false, .vSlice childT
       [mkChild true 1 "One", mkChild false 2 "Two", mkChild true 3 "Three",
        mkChild false 4 "Four", mkChild true 5 "Five"]),
     ("Map", false, .vMap .tString childT
       [(.vString "One", mkChild true 1 "One"), (.vString "Two", mkChild false 2 "Two"),
        (.vString "Three", mkChild true 3 "Three"), (.vString "Four", mkChild false 4 "Four"),
        (.vString "Five", mkChild true 5 "Five")])]))

/-- Whether a token is a yielded element (name, key or keyed-name). -/
def Token.isElem : Token → Bool
  | .nameToken => true
  | .keyToken => true
  | .keyedNameToken => true
  | _ => false

/-- A root whose field `P` is a pointer to a struct with a field `B`:
exercises the absence of pointer indirection at intermediate positions. -/
def pRoot : GoValue :=
  .vStruct [("P", false,
    .vPtr (.tStruct [("B", false, .tString)]) (some (.vStruct [("B", false, .vString "y")])))]

/-! ## Fidelity checks against the repository's own test vectors -/

/-- The tokenizer reproduces every vector of the repository's `TestPath`. -/
theorem tokenize_matches_path_tests :
    tokenize "".data = []
    ∧ tokenize "Field".data = [("Field".data, .nameToken)]
    ∧ tokenize "[Key]".data = [("[Key]".data, .keyToken)]
    ∧ tokenize "Field[Key]".data = [("Field[Key]".data, .keyedNameToken)]
    ∧ tokenize "Field1.Field2".data
        = [("Field1".data, .nameToken), ("Field2".data, .nameToken)]
    ∧ tokenize ".Field1.Field2".data
        = [("Field1".data, .nameToken), ("Field2".data, .nameToken)]
    ∧ tokenize "Field1.Field2.".data
        = [("Field1".data, .nameToken), ("Field2".data, .nameToken), ([], .invalidToken)]
    ∧ tokenize "[".data = [([], .invalidToken)]
    ∧ tokenize "[[".data = [([], .invalidToken)]
    ∧ tokenize "]".data = [([], .invalidToken)]
    ∧ tokenize "]]".data = [([], .invalidToken)]
    ∧ tokenize "[]".data = [([], .invalidToken)]
    ∧ tokenize ".".data = [([], .invalidToken)]
    ∧ tokenize "..".data = [([], .invalidToken)]
    ∧ tokenize "Slice[1][Key].Field".data
        = [("Slice[1]".data, .keyedNameToken), ("[Key]".data, .keyToken),
           ("Field".data, .nameToken)] :=
  ⟨rfl, rfl, rfl, rfl, rfl, rfl, rfl, rfl, rfl, rfl, rfl, rfl, rfl, rfl, rfl⟩

/-- `ParseElement` reproduces the vectors of `TestParseElement`. -/
theorem parseElement_matches_tests :
    ParseElement "" .invalidToken = .error .invalidArgument
    ∧ ParseElement "" .noToken = .error .invalidArgument
    ∧ ParseElement "" .nameToken = .error .invalidArgument
    ∧ ParseElement "Name" .nameToken = .ok ("Name", "")
    ∧ ParseElement "Name[Key]" .keyedNameToken = .ok ("Name", "Key") :=
  ⟨rfl, rfl, rfl, rfl, rfl⟩

/-! ## Tokenizer lemmas (toward claim C9) -/

theorem ckind_dot {c : Char} (h : ckind c = .dot) : c = '.' := by
  unfold ckind at h
  split_ifs at h
  assumption

theorem ckind_lbrack {c : Char} (h : ckind c = .lbrack) : c ≠ '.' := by
  unfold ckind at h
  split_ifs at h with h1
  subst h1
  decide

theorem ckind_rbrack {c : Char} (h : ckind c = .rbrack) : c ≠ '.' := by
  unfold ckind at h
  split_ifs at h with h1 h2
  subst h2
  decide

theorem ckind_other {c : Char} (h : ckind c = .other) : c ≠ '.' := by
  unfold ckind at h
  split_ifs at h with h1 h2 h3
  exact h3

theorem validElement_ne_nil {e : List Char} (h : validElement e = true) : e ≠ [] := by
  intro h'
  subst h'
  simp [validElement] at h

/-- Progress: whenever the scan loop yields an element, the element is
valid and the cursor consumed at least the element's characters. -/
theorem nextLoop_progress (l : List Char) : ∀ (tk : Token) (acc e : List Char)
    (tk' : Token) (rest : List Char), nextLoop l tk acc = (e, tk', rest) →
    tk'.isElem = true →
    validElement e = true ∧ rest.length + e.length ≤ l.length + acc.length := by
  induction l with
  | nil =>
    intro tk acc e tk' rest h hy
    cases tk
    · simp only [nextLoop, Prod.mk.injEq] at h
      obtain ⟨-, ht, -⟩ := h
      subst ht
      simp [Token.isElem] at hy
    · simp only [nextLoop, Prod.mk.injEq] at h
      obtain ⟨-, ht, -⟩ := h
      subst ht
      simp [Token.isElem] at hy
    · by_cases hv : validElement acc = true
      · simp only [nextLoop] at h
        rw [if_pos hv] at h
        simp only [Prod.mk.injEq] at h
        obtain ⟨he, -, hr⟩ := h
        subst he
        subst hr
        simp [hv]
      · simp only [nextLoop] at h
        rw [if_neg hv] at h
        simp only [Prod.mk.injEq] at h
        obtain ⟨-, ht, -⟩ := h
        subst ht
        simp [Token.isElem] at hy
    · simp only [nextLoop, Prod.mk.injEq] at h
      obtain ⟨-, ht, -⟩ := h
      subst ht
      simp [Token.isElem] at hy
    · simp only [nextLoop, Prod.mk.injEq] at h
      obtain ⟨-, ht, -⟩ := h
      subst ht
      simp [Token.isElem] at hy
  | cons c l' ih =>
    intro tk acc e tk' rest h hy
    cases hck : ckind c
    case lbrack =>
      cases tk <;> simp only [nextLoop, hck] at h
      · refine ⟨(ih _ _ _ _ _ h hy).1, ?_⟩
        have h2 := (ih _ _ _ _ _ h hy).2
        simp only [List.length_append, List.length_cons, List.length_nil] at h2 ⊢
        omega
      · refine ⟨(ih _ _ _ _ _ h hy).1, ?_⟩
        have h2 := (ih _ _ _ _ _ h hy).2
        simp only [List.length_append, List.length_cons, List.length_nil] at h2 ⊢
        omega
      · refine ⟨(ih _ _ _ _ _ h hy).1, ?_⟩
        have h2 := (ih _ _ _ _ _ h hy).2
        simp only [List.length_append, List.length_cons, List.length_nil] at h2 ⊢
        omega
      · simp only [Prod.mk.injEq] at h
        obtain ⟨-, ht, -⟩ := h
        subst ht
        simp [Token.isElem] at hy
      · simp only [Prod.mk.injEq] at h
        obtain ⟨-, ht, -⟩ := h
        subst ht
        simp [Token.isElem] at hy
    case rbrack =>
      cases tk <;> simp only [nextLoop, hck] at h
      · simp only [Prod.mk.injEq] at h
        obtain ⟨-, ht, -⟩ := h
        subst ht
        simp [Token.isElem] at hy
      · by_cases hv : validElement (acc ++ [c]) = true
        · rw [if_pos hv] at h
          simp only [Prod.mk.injEq] at h
          obtain ⟨he, -, hr⟩ := h
          subst he
          subst hr
          refine ⟨hv, ?_⟩
          simp only [List.length_append, List.length_cons, List.length_nil]
          omega
        · rw [if_neg hv] at h
          simp only [Prod.mk.injEq] at h
          obtain ⟨-, ht, -⟩ := h
          subst ht
          simp [Token.isElem] at hy
      · simp only [Prod.mk.injEq] at h
        obtain ⟨-, ht, -⟩ := h
        subst ht
        simp [Token.isElem] at hy
      · by_cases hv : validElement (acc ++ [c]) = true
        · rw [if_pos hv] at h
          simp only [Prod.mk.injEq] at h
          obtain ⟨he, -, hr⟩ := h
          subst he
          subst hr
          refine ⟨hv, ?_⟩
          simp only [List.length_append, List.length_cons, List.length_nil]
          omega
        · rw [if_neg hv] at h
          simp only [Prod.mk.injEq] at h
          obtain ⟨-, ht, -⟩ := h
          subst ht
          simp [Token.isElem] at hy
      · by_cases hv : validElement (acc ++ [c]) = true
        · rw [if_pos hv] at h
          simp only [Prod.mk.injEq] at h
          obtain ⟨he, -, hr⟩ := h
          subst he
          subst hr
          refine ⟨hv, ?_⟩
          simp only [List.length_append, List.length_cons, List.length_nil]
          omega
        · rw [if_neg hv] at h
          simp only [Prod.mk.injEq] at h
          obtain ⟨-, ht, -⟩ := h
          subst ht
          simp [Token.isElem] at hy
    case dot =>
      cases tk <;> simp only [nextLoop, hck] at h
      · refine ⟨(ih _ _ _ _ _ h hy).1, ?_⟩
        have h2 := (ih _ _ _ _ _ h hy).2
        simp only [List.length_cons, List.length_nil] at h2 ⊢
        omega
      · simp only [Prod.mk.injEq] at h
        obtain ⟨-, ht, -⟩ := h
        subst ht
        simp [Token.isElem] at hy
      · by_cases hv : validElement acc = true
        · rw [if_pos hv] at h
          simp only [Prod.mk.injEq] at h
          obtain ⟨he, -, hr⟩ := h
          subst he
          subst hr
          refine ⟨hv, ?_⟩
          simp only [List.length_cons]
          omega
        · rw [if_neg hv] at h
          simp only [Prod.mk.injEq] at h
          obtain ⟨-, ht, -⟩ := h
          subst ht
          simp [Token.isElem] at hy
      · simp only [Prod.mk.injEq] at h
        obtain ⟨-, ht, -⟩ := h
        subst ht
        simp [Token.isElem] at hy
      · simp only [Prod.mk.injEq] at h
        obtain ⟨-, ht, -⟩ := h
        subst ht
        simp [Token.isElem] at hy
    case other =>
      cases tk <;> simp only [nextLoop, hck] at h
      all_goals
        refine ⟨(ih _ _ _ _ _ h hy).1, ?_⟩
      all_goals
        have h2 := (ih _ _ _ _ _ h hy).2
      all_goals
        simp only [List.length_append, List.length_cons, List.length_nil] at h2 ⊢
      all_goals omega

/-- Reconstruction: a yielded element accounts for every consumed character
except separator dots, which are only consumed while no element text has
accumulated. -/
theorem nextLoop_filter (l : List Char) : ∀ (tk : Token) (acc e : List Char)
    (tk' : Token) (rest : List Char), nextLoop l tk acc = (e, tk', rest) →
    (tk = .invalidToken → acc = []) → tk'.isElem = true →
    acc ++ l.filter (fun x => x ≠ '.') = e ++ rest.filter (fun x => x ≠ '.') := by
  induction l with
  | nil =>
    intro tk acc e tk' rest h hi hy
    cases tk
    · simp only [nextLoop, Prod.mk.injEq] at h
      obtain ⟨-, ht, -⟩ := h
      subst ht
      simp [Token.isElem] at hy
    · simp only [nextLoop, Prod.mk.injEq] at h
      obtain ⟨-, ht, -⟩ := h
      subst ht
      simp [Token.isElem] at hy
    · by_cases hv : validElement acc = true
      · simp only [nextLoop] at h
        rw [if_pos hv] at h
        simp only [Prod.mk.injEq] at h
        obtain ⟨he, -, hr⟩ := h
        subst he
        subst hr
        simp
      · simp only [nextLoop] at h
        rw [if_neg hv] at h
        simp only [Prod.mk.injEq] at h
        obtain ⟨-, ht, -⟩ := h
        subst ht
        simp [Token.isElem] at hy
    · simp only [nextLoop, Prod.mk.injEq] at h
      obtain ⟨-, ht, -⟩ := h
      subst ht
      simp [Token.isElem] at hy
    · simp only [nextLoop, Prod.mk.injEq] at h
      obtain ⟨-, ht, -⟩ := h
      subst ht
      simp [Token.isElem] at hy
  | cons c l' ih =>
    intro tk acc e tk' rest h hi hy
    cases hck : ckind c
    case lbrack =>
      have hc : ¬(c = '.') := ckind_lbrack hck
      cases tk <;> simp only [nextLoop, hck] at h
      · have := ih .keyToken (acc ++ [c]) e tk' rest h (fun hh => Token.noConfusion hh) hy
        simpa [List.filter_cons, hc] using this
      · have := ih .noToken (acc ++ [c]) e tk' rest h (fun hh => Token.noConfusion hh) hy
        simpa [List.filter_cons, hc] using this
      · have := ih .keyedNameToken (acc ++ [c]) e tk' rest h (fun hh => Token.noConfusion hh) hy
        simpa [List.filter_cons, hc] using this
      · simp only [Prod.mk.injEq] at h
        obtain ⟨-, ht, -⟩ := h
        subst ht
        simp [Token.isElem] at hy
      · simp only [Prod.mk.injEq] at h
        obtain ⟨-, ht, -⟩ := h
        subst ht
        simp [Token.isElem] at hy
    case rbrack =>
      have hc : ¬(c = '.') := ckind_rbrack hck
      cases tk <;> simp only [nextLoop, hck] at h
      · simp only [Prod.mk.injEq] at h
        obtain ⟨-, ht, -⟩ := h
        subst ht
        simp [Token.isElem] at hy
      · by_cases hv : validElement (acc ++ [c]) = true
        · rw [if_pos hv] at h
          simp only [Prod.mk.injEq] at h
          obtain ⟨he, -, hr⟩ := h
          subst he
          subst hr
          simp [List.filter_cons, hc]
        · rw [if_neg hv] at h
          simp only [Prod.mk.injEq] at h
          obtain ⟨-, ht, -⟩ := h
          subst ht
          simp [Token.isElem] at hy
      · simp only [Prod.mk.injEq] at h
        obtain ⟨-, ht, -⟩ := h
        subst ht
        simp [Token.isElem] at hy
      · by_cases hv : validElement (acc ++ [c]) = true
        · rw [if_pos hv] at h
          simp only [Prod.mk.injEq] at h
          obtain ⟨he, -, hr⟩ := h
          subst he
          subst hr
          simp [List.filter_cons, hc]
        · rw [if_neg hv] at h
          simp only [Prod.mk.injEq] at h
          obtain ⟨-, ht, -⟩ := h
          subst ht
          simp [Token.isElem] at hy
      · by_cases hv : validElement (acc ++ [c]) = true
        · rw [if_pos hv] at h
          simp only [Prod.mk.injEq] at h
          obtain ⟨he, -, hr⟩ := h
          subst he
          subst hr
          simp [List.filter_cons, hc]
        · rw [if_neg hv] at h
          simp only [Prod.mk.injEq] at h
          obtain ⟨-, ht, -⟩ := h
          subst ht
          simp [Token.isElem] at hy
    case dot =>
      have hc : c = '.' := ckind_dot hck
      cases tk <;> simp only [nextLoop, hck] at h
      · have hacc : acc = [] := hi rfl
        subst hacc
        have := ih .nameToken [] e tk' rest h (fun hh => Token.noConfusion hh) hy
        simpa [List.filter_cons, hc] using this
      · simp only [Prod.mk.injEq] at h
        obtain ⟨-, ht, -⟩ := h
        subst ht
        simp [Token.isElem] at hy
      · by_cases hv : validElement acc = true
        · rw [if_pos hv] at h
          simp only [Prod.mk.injEq] at h
          obtain ⟨he, -, hr⟩ := h
          subst he
          subst hr
          simp
        · rw [if_neg hv] at h
          simp only [Prod.mk.injEq] at h
          obtain ⟨-, ht, -⟩ := h
          subst ht
          simp [Token.isElem] at hy
      · simp only [Prod.mk.injEq] at h
        obtain ⟨-, ht, -⟩ := h
        subst ht
        simp [Token.isElem] at hy
      · simp only [Prod.mk.injEq] at h
        obtain ⟨-, ht, -⟩ := h
        subst ht
        simp [Token.isElem] at hy
    case other =>
      have hc : ¬(c = '.') := ckind_other hck
      cases tk <;> simp only [nextLoop, hck] at h
      · have := ih .nameToken (acc ++ [c]) e tk' rest h (fun hh => Token.noConfusion hh) hy
        simpa [List.filter_cons, hc] using this
      · have := ih .noToken (acc ++ [c]) e tk' rest h (fun hh => Token.noConfusion hh) hy
        simpa [List.filter_cons, hc] using this
      · have := ih .nameToken (acc ++ [c]) e tk' rest h (fun hh => Token.noConfusion hh) hy
        simpa [List.filter_cons, hc] using this
      · have := ih .keyToken (acc ++ [c]) e tk' rest h (fun hh => Token.noConfusion hh) hy
        simpa [List.filter_cons, hc] using this
      · have := ih .keyedNameToken (acc ++ [c]) e tk' rest h (fun hh => Token.noConfusion hh) hy
        simpa [List.filter_cons, hc] using this

/-- Once the scan holds a name/key/keyed-name token it can no longer yield
`noToken`. -/
theorem nextLoop_ne_noToken (l : List Char) : ∀ (tk : Token) (acc : List Char),
    tk ≠ .invalidToken → tk ≠ .noToken → (nextLoop l tk acc).2.1 ≠ .noToken := by
  induction l with
  | nil =>
    intro tk acc h1 h2
    cases tk
    · exact absurd rfl h1
    · exact absurd rfl h2
    · simp only [nextLoop]
      by_cases hv : validElement acc = true
      · rw [if_pos hv]
        simp
      · rw [if_neg hv]
        simp
    · simp [nextLoop]
    · simp [nextLoop]
  | cons c l' ih =>
    intro tk acc h1 h2
    cases hck : ckind c
    case lbrack =>
      cases tk
      · exact absurd rfl h1
      · exact absurd rfl h2
      · simp only [nextLoop, hck]
        exact ih .keyedNameToken (acc ++ [c]) (fun hh => Token.noConfusion hh)
          (fun hh => Token.noConfusion hh)
      · simp only [nextLoop, hck]
        simp
      · simp only [nextLoop, hck]
        simp
    case rbrack =>
      cases tk
      · exact absurd rfl h1
      · exact absurd rfl h2
      · simp only [nextLoop, hck]
        simp
      · simp only [nextLoop, hck]
        by_cases hv : validElement (acc ++ [c]) = true
        · rw [if_pos hv]
          simp
        · rw [if_neg hv]
          simp
      · simp only [nextLoop, hck]
        by_cases hv : validElement (acc ++ [c]) = true
        · rw [if_pos hv]
          simp
        · rw [if_neg hv]
          simp
    case dot =>
      cases tk
      · exact absurd rfl h1
      · exact absurd rfl h2
      · simp only [nextLoop, hck]
        by_cases hv : validElement acc = true
        · rw [if_pos hv]
          simp
        · rw [if_neg hv]
          simp
      · simp only [nextLoop, hck]
        simp
      · simp only [nextLoop, hck]
        simp
    case other =>
      cases tk
      · exact absurd rfl h1
      · exact absurd rfl h2
      · simp only [nextLoop, hck]
        exact ih .nameToken (acc ++ [c]) (fun hh => Token.noConfusion hh)
          (fun hh => Token.noConfusion hh)
      · simp only [nextLoop, hck]
        exact ih .keyToken (acc ++ [c]) (fun hh => Token.noConfusion hh)
          (fun hh => Token.noConfusion hh)
      · simp only [nextLoop, hck]
        exact ih .keyedNameToken (acc ++ [c]) (fun hh => Token.noConfusion hh)
          (fun hh => Token.noConfusion hh)

/-- `Next` yields `noToken` only at the end of the path. -/
theorem next_noToken_nil (l : List Char) (h : (next l).2.1 = .noToken) : l = [] := by
  cases l with
  | nil => rfl
  | cons c l' =>
    exfalso
    unfold next at h
    cases hck : ckind c
    case lbrack =>
      simp only [nextLoop, hck] at h
      exact nextLoop_ne_noToken l' .keyToken ([] ++ [c]) (fun hh => Token.noConfusion hh)
        (fun hh => Token.noConfusion hh) h
    case rbrack =>
      simp only [nextLoop, hck] at h
      exact Token.noConfusion h
    case dot =>
      simp only [nextLoop, hck] at h
      exact nextLoop_ne_noToken l' .nameToken [] (fun hh => Token.noConfusion hh)
        (fun hh => Token.noConfusion hh) h
    case other =>
      simp only [nextLoop, hck] at h
      exact nextLoop_ne_noToken l' .nameToken ([] ++ [c]) (fun hh => Token.noConfusion hh)
        (fun hh => Token.noConfusion hh) h

/-- Fuel stability: any fuel beyond the path length produces the same token
stream — iterating `Next` terminates within `length + 1` calls. -/
theorem tokenizeFuel_stable : ∀ (a : Nat) (l : List Char) (b : Nat),
    l.length < a → l.length < b → tokenizeFuel a l = tokenizeFuel b l := by
  intro a
  induction a with
  | zero =>
    intro l b ha
    omega
  | succ a ih =>
    intro l b ha hb
    cases b with
    | zero => omega
    | succ b =>
      rcases hn : next l with ⟨e, tkr⟩
      rcases tkr with ⟨tk, rest⟩
      cases tk
      · simp only [tokenizeFuel, hn]
      · simp only [tokenizeFuel, hn]
      all_goals
        have hprog := nextLoop_progress l .invalidToken [] e _ rest hn rfl
        have hne : e ≠ [] := validElement_ne_nil hprog.1
        have hlen : 0 < e.length := List.length_pos.mpr hne
        have h2 := hprog.2
        simp only [List.length_nil] at h2
        simp only [tokenizeFuel, hn]
        rw [ih rest b (by omega) (by omega)]

/-- Soundness of the token stream with sufficient fuel: when no invalid
token appears, the concatenated elements reconstruct the path minus its
separator dots, and there are at most `length` yields. -/
theorem tokenizeFuel_spec : ∀ (fuel : Nat) (l : List Char), l.length < fuel →
    Token.invalidToken ∉ (tokenizeFuel fuel l).map Prod.snd →
    ((tokenizeFuel fuel l).map Prod.fst).flatten = l.filter (fun x => x ≠ '.')
    ∧ (tokenizeFuel fuel l).length ≤ l.length := by
  intro fuel
  induction fuel with
  | zero =>
    intro l hl
    omega
  | succ fuel ih =>
    intro l hl hinv
    rcases hn : next l with ⟨e, tkr⟩
    rcases tkr with ⟨tk, rest⟩
    cases tk
    · simp only [tokenizeFuel, hn] at hinv
      simp at hinv
    · have hnil : l = [] := next_noToken_nil l (by rw [hn])
      subst hnil
      simp only [tokenizeFuel, hn]
      simp
    all_goals
      have hprog := nextLoop_progress l .invalidToken [] e _ rest hn rfl
      have hne : e ≠ [] := validElement_ne_nil hprog.1
      have hlen : 0 < e.length := List.length_pos.mpr hne
      have h2 := hprog.2
      simp only [List.length_nil] at h2
      have hfil := nextLoop_filter l .invalidToken [] e _ rest hn (fun _ => rfl) rfl
      simp only [List.nil_append] at hfil
      simp only [tokenizeFuel, hn] at hinv ⊢
      simp only [List.map_cons, List.mem_cons, not_or] at hinv
      have ihr := ih rest (by omega) hinv.2
      refine ⟨?_, ?_⟩
    · simp only [List.map_cons, List.flatten_cons]
      rw [ihr.1, ← hfil]
    · simp only [List.length_cons]
      omega
    · simp only [List.map_cons, List.flatten_cons]
      rw [ihr.1, ← hfil]
    · simp only [List.length_cons]
      omega
    · simp only [List.map_cons, List.flatten_cons]
      rw [ihr.1, ← hfil]
    · simp only [List.length_cons]
      omega

/-! ## Supporting lemmas for the conversion claims -/

/-- A successful `parsePos` respects its bound. -/
theorem parsePos_le {l : List Char} {bound m : Nat} (h : parsePos l bound = some m) :
    m ≤ bound := by
  cases l with
  | nil => simp [parsePos] at h
  | cons c r =>
    simp only [parsePos] at h
    rcases hna : natOfDigitsAux (c :: r) 0 with _ | m'
    · simp only [hna] at h
      exact Option.noConfusion h
    · simp only [hna] at h
      by_cases hb : m' ≤ bound
      · rw [if_pos hb] at h
        simp only [Option.some.injEq] at h
        omega
      · rw [if_neg hb] at h
        simp at h

/-- Everything `ParseInt(·, 10, 64)` accepts lies in the 64-bit signed
range: overflowing 64 bits is an error. -/
theorem parseInt64_range {s : String} {n : Int} (h : parseInt64 s = some n) :
    -(2 ^ 63 : Int) ≤ n ∧ n ≤ 2 ^ 63 - 1 := by
  unfold parseInt64 at h
  rcases hd : s.data with _ | ⟨c, rest⟩
  · simp only [hd] at h
    exact Option.noConfusion h
  · simp only [hd] at h
    by_cases hm : c = '-'
    · rw [if_pos hm] at h
      rcases hp : parsePos rest (2 ^ 63) with _ | m
      · simp only [hp] at h
        exact Option.noConfusion h
      · simp only [hp, Option.some.injEq] at h
        have hb : m ≤ 2 ^ 63 := parsePos_le hp
        subst h
        norm_num at hb ⊢
        omega
    · rw [if_neg hm] at h
      by_cases hpl : c = '+'
      · rw [if_pos hpl] at h
        rcases hp : parsePos rest (2 ^ 63 - 1) with _ | m
        · simp only [hp] at h
          exact Option.noConfusion h
        · simp only [hp, Option.some.injEq] at h
          have hb : m ≤ 2 ^ 63 - 1 := parsePos_le hp
          subst h
          norm_num at hb ⊢
          omega
      · rw [if_neg hpl] at h
        rcases hp : parsePos (c :: rest) (2 ^ 63 - 1) with _ | m
        · simp only [hp] at h
          exact Option.noConfusion h
        · simp only [hp, Option.some.injEq] at h
          have hb : m ≤ 2 ^ 63 - 1 := parsePos_le hp
          subst h
          norm_num at hb ⊢
          omega

/-- Everything `ParseUint(·, 10, 64)` accepts lies in the 64-bit unsigned
range. -/
theorem parseUint64_range {s : String} {m : Nat} (h : parseUint64 s = some m) :
    m ≤ 2 ^ 64 - 1 :=
  parsePos_le h

/-- `convEach` under an always-succeeding element conversion: the inputs
are converted positionally into the first `min` slots and the remaining
slots keep their (zero) contents. -/
theorem convEach_const (conv : String → GoValue → GoValue × Option Err)
    (g : String → GoValue) (z : GoValue) (hc : ∀ s, conv s z = (g s, none)) :
    ∀ (ss : List String) (n : Nat),
      convEach conv ss (List.replicate n z)
        = .ok ((ss.take n).map g ++ List.replicate (n - ss.length) z) := by
  intro ss
  induction ss with
  | nil =>
    intro n
    simp [convEach]
  | cons s ss ih =>
    intro n
    cases n with
    | zero => simp [convEach, List.replicate]
    | succ n =>
      simp only [List.replicate, convEach, hc s, ih n, List.take_succ_cons, List.map_cons,
        List.length_cons, List.cons_append, Nat.succ_sub_succ]

/-! ## Claim theorems -/

/-- C9: for every path on which the tokenizer emits no invalid token,
repeatedly calling `Next` terminates with a no-more token after finitely
many yields (at most `length` of them, and any fuel beyond the path length
gives the same finite stream), and the concatenation of the yielded element
texts equals the path with the consumed separator dots removed. -/
theorem tokenize_terminates_and_reconstructs (p : String)
    (h : Token.invalidToken ∉ (tokenize p.data).map Prod.snd) :
    ((tokenize p.data).map Prod.fst).flatten = p.data.filter (fun x => x ≠ '.')
    ∧ (tokenize p.data).length ≤ p.data.length
    ∧ ∀ fuel, p.data.length < fuel → tokenizeFuel fuel p.data = tokenize p.data := by
  have hs := tokenizeFuel_spec (p.data.length + 1) p.data (by omega) h
  exact ⟨hs.1, hs.2, fun fuel hf =>
    tokenizeFuel_stable fuel p.data (p.data.length + 1) hf (by omega)⟩

/-- Witness for C9 at the concrete path of the repository's tests. -/
theorem tokenize_terminates_and_reconstructs_witness :
    ((tokenize "Slice[1][Key].Field".data).map Prod.fst).flatten
      = "Slice[1][Key].Field".data.filter (fun x => x ≠ '.')
    ∧ (tokenize "Slice[1][Key].Field".data).length ≤ "Slice[1][Key].Field".data.length
    ∧ ∀ fuel, "Slice[1][Key].Field".data.length < fuel →
        tokenizeFuel fuel "Slice[1][Key].Field".data = tokenize "Slice[1][Key].Field".data :=
  tokenize_terminates_and_reconstructs "Slice[1][Key].Field" (by decide)

/-- C1: `Set` is an unimplemented stub (`return nil`): on the test fixture
it reports success without mutating anything, so the subsequent `Get` does
not see `"Foo"` (it sees the untouched fourth slice element, and even that
as the whole element, since keyed-name resolution returns early) — the
repository's own `TestSet` fails. -/
theorem set_is_noop_on_test_fixture :
    Set "Slice[3].String" "Foo" getData = (getData, none)
    ∧ Get 100 "Slice[3].String" getData = .ok (mkChild false 4 "Four")
    ∧ Outcome.ok (mkChild false 4 "Four") ≠ Outcome.ok (GoValue.vString "Foo") := by
  refine ⟨rfl, rfl, ?_⟩
  simp [mkChild]

/-- C2: `Find "Map[Three].String"` on the test fixture returns the whole
map entry (the `Child` struct stored under `"Three"`), because keyed-name
resolution returns immediately and the trailing `.String` is never
consumed — the repository's own `TestFind` (which expects the `String`
field `"Three"`) fails. -/
theorem find_keyed_name_returns_map_entry :
    Find 100 "Map[Three].String" getData = .ok (mkChild true 3 "Three")
    ∧ Outcome.ok (mkChild true 3 "Three") ≠ Outcome.ok (GoValue.vString "Three") := by
  refine ⟨rfl, ?_⟩
  simp [mkChild]

/-- C3: `MustGet` is an unimplemented stub (`return nil`): it never calls
`Get` and always returns a nil interface, while `Get` succeeds with the
located value on the same input — contradicting its own doc comment
"MustGet is like Get but panics on error". (`MustFind` does wrap `Find`;
`MustSet`'s empty body is indistinguishable from the no-op `Set`.) -/
theorem mustGet_stub_differs_from_get :
    MustGet "Map[Three].String" getData = .ok .vNil
    ∧ Get 100 "Map[Three].String" getData = .ok (mkChild true 3 "Three")
    ∧ Outcome.ok GoValue.vNil ≠ Outcome.ok (mkChild true 3 "Three") := by
  refine ⟨rfl, rfl, ?_⟩
  simp [mkChild]

/-- Counterexample for C4: a path ending at an absent field name SUCCEEDS
(returning the invalid zero value) instead of failing with invalid-path;
and a pointer-to-struct at an intermediate position is NOT stripped — the
name step fails with invalid-path even though the field exists behind the
pointer. -/
theorem find_absent_field_and_pointer_cex :
    Find 100 "Missing" (.vStruct [("A", false, .vString "x")]) = .ok .vInvalid
    ∧ Find 100 "P.B" pRoot = .fail .invalidPath :=
  ⟨rfl, rfl⟩

/-- C4 (amended): a name token requires the current position to be
literally a struct (pointer indirection is stripped only at the root) and
descends through `FieldByName` (promoted embedded fields included) with no
validity check: any non-struct position fails with invalid-path, a path
ending right after an absent field returns the invalid value successfully,
and a promoted field of an anonymous member is found. -/
theorem find_name_token_semantics (fuel : Nat) (e : List Char)
    (rest : List (List Char × Token)) (fields : List (String × Bool × GoValue))
    (cur : GoValue) (g : Nat) (embName fname : String) (v : GoValue)
    (hcur : ∀ fs, cur ≠ .vStruct fs) (hn : embName ≠ fname) :
    findLoop fuel ((e, .nameToken) :: rest) (.vStruct fields)
      = findLoop fuel rest (fieldByName fuel fields (String.mk e))
    ∧ findLoop fuel ((e, .nameToken) :: rest) cur = .fail .invalidPath
    ∧ findLoop fuel [] .vInvalid = .ok .vInvalid
    ∧ fieldByName (g + 2) [(embName, true, .vStruct [(fname, false, v)])] fname = v := by
  refine ⟨rfl, ?_, rfl, ?_⟩
  · cases cur <;> first
      | rfl
      | exact absurd rfl (hcur _)
  · cases v <;> simp [fieldByName, hn]

/-- Witness for C4's amended theorem at concrete inputs. -/
theorem find_name_token_semantics_witness :
    findLoop 3 [("A".data, .nameToken)] (.vStruct [("A", false, .vBool true)])
      = findLoop 3 [] (fieldByName 3 [("A", false, .vBool true)] (String.mk "A".data))
    ∧ findLoop 3 [("A".data, .nameToken)] (.vBool false) = .fail .invalidPath
    ∧ findLoop 3 [] .vInvalid = .ok .vInvalid
    ∧ fieldByName 3 [("E", true, .vStruct [("B", false, .vString "y")])] "B" = .vString "y" :=
  find_name_token_semantics 3 "A".data [] [("A", false, .vBool true)] (.vBool false) 1
    "E" "B" (.vString "y") (fun _ hh => GoValue.noConfusion hh) (by decide)

/-- Counterexample for C5: the numeric key `"-1"` is out of range for a
2-element slice, yet `valueByKey` PANICS (via `Value.Index`) instead of
failing with the out-of-range error — the bounds check only rejects
indexes at or past the length. -/
theorem valueByKey_negative_key_panics :
    valueByKey 10 (.vSlice .tString [.vString "a", .vString "b"]) "-1" = .panicked
    ∧ (Outcome.panicked : Outcome GoValue) ≠ .fail .outOfRange := by
  refine ⟨rfl, ?_⟩
  simp

/-- C5 (amended): against an array or slice the key must `Atoi`-parse as a
base-10 integer in the 64-bit range (else invalid-path); a parsed index at
or past the length fails with out-of-range; a negative parsed index panics;
an in-range index yields the element. -/
theorem valueByKey_index_semantics (fuel : Nat) (t : GoType) (elems : List GoValue)
    (key : String) :
    (Atoi key = none →
      valueByKey fuel (.vArray t elems) key = .fail .invalidPath
      ∧ valueByKey fuel (.vSlice t elems) key = .fail .invalidPath)
    ∧ (∀ i : Int, Atoi key = some i → (elems.length : Int) ≤ i →
      valueByKey fuel (.vArray t elems) key = .fail .outOfRange
      ∧ valueByKey fuel (.vSlice t elems) key = .fail .outOfRange)
    ∧ (∀ i : Int, Atoi key = some i → i < 0 →
      valueByKey fuel (.vArray t elems) key = .panicked
      ∧ valueByKey fuel (.vSlice t elems) key = .panicked)
    ∧ (∀ i : Int, Atoi key = some i → 0 ≤ i → i < (elems.length : Int) →
      valueByKey fuel (.vArray t elems) key = .ok (elems.getD i.toNat .vInvalid)
      ∧ valueByKey fuel (.vSlice t elems) key = .ok (elems.getD i.toNat .vInvalid)) := by
  refine ⟨?_, ?_, ?_, ?_⟩
  · intro h
    constructor <;> simp [valueByKey, h]
  · intro i h hge
    constructor <;>
      · simp only [valueByKey, h]
        rw [if_pos hge]
  · intro i h hneg
    have hnotge : ¬((elems.length : Int) ≤ i) := by omega
    constructor <;>
      · simp only [valueByKey, h]
        rw [if_neg hnotge, if_pos hneg]
  · intro i h h0 hlt
    have hnotge : ¬((elems.length : Int) ≤ i) := by omega
    have hnotneg : ¬(i < 0) := by omega
    constructor <;>
      · simp only [valueByKey, h]
        rw [if_neg hnotge, if_neg hnotneg]

/-- Witness for C5's amended theorem: the in-range case at index 2. -/
theorem valueByKey_index_semantics_witness :
    valueByKey 10 (.vArray .tString [.vString "a", .vString "b", .vString "c"]) "2"
      = .ok (([.vString "a", .vString "b", .vString "c"] : List GoValue).getD
          (Int.toNat 2) .vInvalid)
    ∧ valueByKey 10 (.vSlice .tString [.vString "a", .vString "b", .vString "c"]) "2"
      = .ok (([.vString "a", .vString "b", .vString "c"] : List GoValue).getD
          (Int.toNat 2) .vInvalid) :=
  (valueByKey_index_semantics 10 .tString
    [.vString "a", .vString "b", .vString "c"] "2").2.2.2 2 (by decide) (by decide) (by decide)

/-- Counterexample for C6: `"300"` overflows the 8-bit destinations (their
maxima are 127 and 255), yet both conversions SUCCEED, silently truncating
to 44 = 300 mod 256 — narrowing overflow is not an error. -/
theorem int_narrowing_truncates_silently :
    stringToIntValue "300" .w8 0 = (.vInt .w8 44, none)
    ∧ stringToUintValue "300" .w8 0 = (.vUint .w8 44, none)
    ∧ ((2 : Int) ^ 8 - 1 < 300) := by
  refine ⟨rfl, rfl, by norm_num⟩

/-- C6 (amended): a signed destination of any width parses the text as
64-bit signed — a value outside the 64-bit range is an error — and then
narrows to the destination width by two's-complement truncation with no
overflow error; likewise unsigned via 64-bit unsigned parsing and modular
truncation. -/
theorem int_uint_conversion_semantics (s : String) (w : IntW) (prior : Int)
    (priorU : Nat) :
    (∀ n : Int, parseInt64 s = some n →
      stringToIntValue s w prior = (.vInt w (wrapSigned w n), none)
      ∧ -(2 ^ 63 : Int) ≤ n ∧ n ≤ 2 ^ 63 - 1)
    ∧ (parseInt64 s = none →
      stringToIntValue s w prior = (.vInt w prior, some .parseFailure))
    ∧ (∀ m : Nat, parseUint64 s = some m →
      stringToUintValue s w priorU = (.vUint w (wrapUnsigned w m), none)
      ∧ m ≤ 2 ^ 64 - 1)
    ∧ (parseUint64 s = none →
      stringToUintValue s w priorU = (.vUint w priorU, some .parseFailure)) := by
  refine ⟨?_, ?_, ?_, ?_⟩
  · intro n h
    exact ⟨by simp [stringToIntValue, h], (parseInt64_range h).1, (parseInt64_range h).2⟩
  · intro h
    simp [stringToIntValue, h]
  · intro m h
    exact ⟨by simp [stringToUintValue, h], parseUint64_range h⟩
  · intro h
    simp [stringToUintValue, h]

/-- Witness for C6's amended theorem at concrete inputs. -/
theorem int_uint_conversion_semantics_witness :
    (stringToIntValue "-130" .w8 5 = (.vInt .w8 (wrapSigned .w8 (-130)), none)
      ∧ -(2 ^ 63 : Int) ≤ -130 ∧ (-130 : Int) ≤ 2 ^ 63 - 1)
    ∧ (stringToUintValue "77" .w16 3 = (.vUint .w16 (wrapUnsigned .w16 77), none)
      ∧ (77 : Nat) ≤ 2 ^ 64 - 1) :=
  ⟨(int_uint_conversion_semantics "-130" .w8 5 0).1 (-130) (by decide),
   (int_uint_conversion_semantics "77" .w16 0 3).2.2.1 77 (by decide)⟩

/-- Counterexample for C7: converting `"1"` into a 3-slot array whose prior
contents are all 9 leaves the two unassigned slots at ZERO, not at their
prior value 9 — the conversion builds a fresh zero array and assigns it
wholesale. -/
theorem array_tail_slots_zeroed :
    stringToValue 10 "1" (.vArray (.tInt .w64) [.vInt .w64 9, .vInt .w64 9, .vInt .w64 9])
      = (.vArray (.tInt .w64) [.vInt .w64 1, .vInt .w64 0, .vInt .w64 0], none)
    ∧ GoValue.vArray (.tInt .w64) [.vInt .w64 1, .vInt .w64 0, .vInt .w64 0]
      ≠ .vArray (.tInt .w64) [.vInt .w64 1, .vInt .w64 9, .vInt .w64 9] := by
  refine ⟨rfl, ?_⟩
  simp

/-- C7 (amended, shown for string-element arrays where element conversion
always succeeds): the input is split on commas, each element trimmed and
assigned positionally up to `min(arrayLength, elementCount)`; extra input
elements are silently ignored, and array slots beyond the input count are
set to the ZERO value of the element type (the destination is replaced by
a freshly zeroed array, losing prior slot values). -/
theorem array_conversion_semantics (fuel : Nat) (s : String) (elems : List GoValue) :
    stringToValue (fuel + 2) s (.vArray .tString elems)
      = (.vArray .tString
          (((((splitOnChar ',' s.data).map (fun p => String.mk (trimSpace p))).take
              elems.length).map GoValue.vString)
            ++ List.replicate
              (elems.length
                - ((splitOnChar ',' s.data).map (fun p => String.mk (trimSpace p))).length)
              (.vString "")), none) := by
  have h1 : stringToValue (fuel + 2) s (.vArray .tString elems)
      = stringToArrayValue (stringToValue (fuel + 1)) (zeroValue (fuel + 1)) s
          .tString elems := rfl
  rw [h1]
  unfold stringToArrayValue
  rw [show zeroValue (fuel + 1) GoType.tString = .vString "" from rfl]
  rw [convEach_const (stringToValue (fuel + 1)) GoValue.vString (.vString "")
    (fun _ => rfl) ((splitOnChar ',' s.data).map (fun p => String.mk (trimSpace p)))
    elems.length]

/-- C8 (amended): converting `"red, green, blue"` into a string-slice
destination succeeds with a 3-element sequence, but the slice path does
NOT trim: the elements are `"red"`, `" green"` and `" blue"` with the
space after each comma preserved, and the prior contents are replaced
wholesale. -/
theorem slice_red_green_blue :
    stringToValue 10 "red, green, blue" (.vSlice .tString [.vString "one"])
      = (.vSlice .tString [.vString "red", .vString " green", .vString " blue"], none) :=
  rfl

/-- Counterexample for C8: the claimed trimmed result `["red","green","blue"]`
is not what the conversion produces. -/
theorem slice_conversion_no_trim_cex :
    stringToValue 10 "red, green, blue" (.vSlice .tString [.vString "one"])
      ≠ (.vSlice .tString [.vString "red", .vString "green", .vString "blue"], none) := by
  have h : stringToValue 10 "red, green, blue" (.vSlice .tString [.vString "one"])
      = (.vSlice .tString [.vString "red", .vString " green", .vString " blue"], none) :=
    rfl
  rw [h]
  simp

/-- C10: when a later struct-literal pair fails, fields assigned by earlier
pairs keep their newly written value (`stringToStructValue` writes the
destination field-by-field in place and returns on error without restoring),
whereas slice and map conversion build the whole replacement first and
leave the destination completely untouched on error. -/
theorem struct_in_place_slice_map_all_or_nothing (fuel : Nat) (a : String) (b : Int)
    (sElems : List GoValue) (mEntries : List (GoValue × GoValue)) :
    stringToValue (fuel + 3) "\x7bA=foo,B=x\x7d"
        (.vStruct [("A", false, .vString a), ("B", false, .vInt .w64 b)])
      = (.vStruct [("A", false, .vString "foo"), ("B", false, .vInt .w64 b)],
         some .parseFailure)
    ∧ stringToValue (fuel + 3) "1,x" (.vSlice (.tInt .w64) sElems)
      = (.vSlice (.tInt .w64) sElems, some .parseFailure)
    ∧ stringToValue (fuel + 3) "k=x" (.vMap .tString (.tInt .w64) mEntries)
      = (.vMap .tString (.tInt .w64) mEntries, some .parseFailure) :=
  ⟨rfl, rfl, rfl⟩

end Strconvex
